import Mathlib

/-
  Verification of the geometric node model of the open-parse repository
  (src/src/schemas.py, src/src/openparse/consts.py).

  The Python classes Bbox, TextSpan, LineElement, TextElement, TableElement
  and Node are embedded shallowly: floats become rationals (all float
  operations used by the embedded code are comparisons, min, max, abs and
  negation, which are exact), python ints become Int, fallible code
  (pydantic validators, min and max over possibly-empty sequences) returns
  Option, and the five re.sub markdown-cleanup passes of
  LineElement._clean_markdown_formatting become explicit left-to-right
  scanners over List Char that reproduce the leftmost-match, greedy,
  continue-after-replacement semantics of re.sub for these five patterns.
  The scanners recurse on a fuel argument initialised to the list length,
  which keeps them structurally recursive and hence computable by the
  kernel; every recursive call shortens the list, so the fuel never runs
  out on the initial value.
-/

namespace OpenParse

/-- Python regex class \s for str patterns (the source compiles its
patterns without re.ASCII, so \s is Unicode-aware): the 29 code points
CPython's re matches, namely tab through carriage return, the four
information separators, space, next line, no-break space, ogham space
mark, the en/em-quad family U+2000 to U+200A, line and paragraph
separator, narrow no-break space, medium mathematical space and
ideographic space. -/
def isSp (c : Char) : Bool :=
  (0x09 ≤ c.val && c.val ≤ 0x0d) || (0x1c ≤ c.val && c.val ≤ 0x1f) ||
    c.val == 0x20 || c.val == 0x85 || c.val == 0xa0 || c.val == 0x1680 ||
    (0x2000 ≤ c.val && c.val ≤ 0x200a) || c.val == 0x2028 ||
    c.val == 0x2029 || c.val == 0x202f || c.val == 0x205f ||
    c.val == 0x3000

/-- A markdown emphasis marker character, star or underscore. -/
def isMk (c : Char) : Bool := c == '*' || c == '_'

/-- Two characters forming a double marker, the regex group (\*\*|__). -/
def isDbl (a b : Char) : Bool := a == b && isMk a

/-- Does the list begin with a whitespace character (start of a \s+ run). -/
def headSp : List Char → Bool
  | [] => false
  | c :: _ => isSp c

theorem dropWhileSp_len (l : List Char) :
    (l.dropWhile isSp).length ≤ l.length :=
  (List.dropWhile_sublist (l := l) (p := isSp)).length_le

/-- First cleanup pattern of LineElement._clean_markdown_formatting:
re.sub of (\*\*|__)\s+ by the group, removing whitespace that follows an
opening double marker.  Scans left to right; on a match the maximal
whitespace run is dropped and scanning resumes after it. -/
def rule1F : Nat → List Char → List Char
  | 0, l => l
  | _ + 1, [] => []
  | _ + 1, [a] => [a]
  | f + 1, a :: b :: rest =>
    if isDbl a b && headSp rest then a :: b :: rule1F f (rest.dropWhile isSp)
    else a :: rule1F f (b :: rest)

def rule1 (l : List Char) : List Char := rule1F l.length l

/-- Second cleanup pattern: re.sub of \s+(\*\*|__) by the group, removing
whitespace that precedes a closing double marker. -/
def rule2F : Nat → List Char → List Char
  | 0, l => l
  | _ + 1, [] => []
  | f + 1, a :: rest =>
    if isSp a then
      match rest.dropWhile isSp with
      | b :: c :: rest2 =>
        if isDbl b c then b :: c :: rule2F f rest2 else a :: rule2F f rest
      | _ => a :: rule2F f rest
    else a :: rule2F f rest

def rule2 (l : List Char) : List Char := rule2F l.length l

/-- Third cleanup pattern: re.sub of (\*|_)\s+ by the group, removing
whitespace that follows any single marker. -/
def rule3F : Nat → List Char → List Char
  | 0, l => l
  | _ + 1, [] => []
  | f + 1, a :: rest =>
    if isMk a && headSp rest then a :: rule3F f (rest.dropWhile isSp)
    else a :: rule3F f rest

def rule3 (l : List Char) : List Char := rule3F l.length l

/-- Fourth cleanup pattern: re.sub of \s+(\*|_) by the group, removing
whitespace that precedes any single marker. -/
def rule4F : Nat → List Char → List Char
  | 0, l => l
  | _ + 1, [] => []
  | f + 1, a :: rest =>
    if isSp a then
      match rest.dropWhile isSp with
      | b :: rest2 => if isMk b then b :: rule4F f rest2 else a :: rule4F f rest
      | [] => a :: rule4F f rest
    else a :: rule4F f rest

def rule4 (l : List Char) : List Char := rule4F l.length l

/-- Fifth cleanup pattern: re.sub of (\*\*|__)(\*\*|__) by the two groups
separated by one space, inserting a space between two adjacent double
markers.  Scanning resumes after the four matched characters. -/
def rule5 : List Char → List Char
  | [] => []
  | [a] => [a]
  | [a, b] => [a, b]
  | [a, b, c] => [a, b, c]
  | a :: b :: c :: d :: rest =>
    if isDbl a b && isDbl c d then a :: b :: ' ' :: c :: d :: rule5 rest
    else a :: rule5 (b :: c :: d :: rest)

/-- LineElement._clean_markdown_formatting on character lists: the five
re.sub passes applied in source order. -/
def cleanupList (l : List Char) : List Char :=
  rule5 (rule4 (rule3 (rule2 (rule1 l))))

/-- LineElement._clean_markdown_formatting: regex cleanup of markdown
formatting, five re.sub passes in the source's order. -/
def clean_markdown_formatting (s : String) : String :=
  (cleanupList s.toList).asString

example : clean_markdown_formatting "** bold **" = "**bold**" := by decide
example : clean_markdown_formatting "****" = "** **" := by decide
example : clean_markdown_formatting "**__" = "** __" := by decide
example : clean_markdown_formatting "* * * *" = "** **" := by decide
example : clean_markdown_formatting "******" = "** ****" := by decide
example : isSp ' ' = true ∧ isSp '　' = true ∧ isSp ' ' = true ∧
    isSp '\x1d' = true ∧ isSp 'x' = false ∧ isSp '*' = false := by decide
example : clean_markdown_formatting "** x" = "**x" := by decide
example : clean_markdown_formatting "*　*" = "**" := by decide
example : clean_markdown_formatting "x\u0085**" = "x**" := by decide

/-- consts.ELEMENT_DELIMETER from src/src/openparse/consts.py. -/
def ELEMENT_DELIMETER : String := "<br><br>"

/-- TextSpan: smallest styled text unit (schemas.py).  Floats become
rationals. -/
structure TextSpan where
  text : String
  is_bold : Bool
  is_italic : Bool
  size : ℚ
deriving DecidableEq

/-- TextSpan.is_heading: size at least MIN_HEADING_SIZE = 16 and bold. -/
def TextSpan.is_heading (s : TextSpan) : Bool :=
  decide (16 ≤ s.size) && s.is_bold

/-- Bold flag of an optional neighbouring span; None counts as not bold,
so that the python test (span is None or not span.is_bold) is the
negation of this. -/
def optBold : Option TextSpan → Bool
  | none => false
  | some p => p.is_bold

/-- Italic flag of an optional neighbouring span. -/
def optItalic : Option TextSpan → Bool
  | none => false
  | some p => p.is_italic

/-- TextSpan.formatted_text: wrap the span text in markdown markers only at
style boundaries against the adjacent spans, in the source's order
(bold-open, italic-open, bold-close, italic-close). -/
def TextSpan.formatted_text
    (s : TextSpan) (previous_span next_span : Option TextSpan) : String :=
  let f0 := s.text
  let f1 := if s.is_bold && !optBold previous_span then "**" ++ f0 else f0
  let f2 := if s.is_italic && !optItalic previous_span then "*" ++ f1 else f1
  let f3 := if s.is_bold && !optBold next_span then f2 ++ "**" else f2
  if s.is_italic && !optItalic next_span then f3 ++ "*" else f3

/-- LineElement: a 4-tuple bbox (x0, y0, x1, y1), spans, optional style.
The bbox values are the stored (already rounded) coordinates. -/
structure LineElement where
  bbox : ℚ × ℚ × ℚ × ℚ
  spans : List TextSpan
  style : Option String
deriving DecidableEq

def LineElement.x0 (le : LineElement) : ℚ := le.bbox.1
def LineElement.y0 (le : LineElement) : ℚ := le.bbox.2.1
def LineElement.x1 (le : LineElement) : ℚ := le.bbox.2.2.1
def LineElement.y1 (le : LineElement) : ℚ := le.bbox.2.2.2

/-- The per-span loop of LineElement.text: each span formatted against its
immediate neighbours (previous accumulates, next is the head of the rest)
and concatenated. -/
def combineSpans : Option TextSpan → List TextSpan → String
  | _, [] => ""
  | prev, s :: rest => s.formatted_text prev rest.head? ++ combineSpans (some s) rest

/-- LineElement.text: empty for no spans, else the concatenated formatted
spans followed by the markdown cleanup pass. -/
def LineElement.text (le : LineElement) : String :=
  match le.spans with
  | [] => ""
  | _ => clean_markdown_formatting (combineSpans none le.spans)

/-- The python slice (spans[:-1] if len(spans) > 1 else spans): the spans
that vote on line style; the last span is ignored when more than one span
is present. -/
def LineElement.votingSpans (le : LineElement) : List TextSpan :=
  if 1 < le.spans.length then le.spans.dropLast else le.spans

def LineElement.is_bold (le : LineElement) : Bool :=
  le.votingSpans.all (fun s => s.is_bold)

def LineElement.is_italic (le : LineElement) : Bool :=
  le.votingSpans.all (fun s => s.is_italic)

/-- LineElement.is_heading inlines the per-span heading test
(size at least 16 and bold). -/
def LineElement.is_heading (le : LineElement) : Bool :=
  le.votingSpans.all (fun s => decide (16 ≤ s.size) && s.is_bold)

/-- LineElement.overlaps: separating-axis test on the 4-tuple bbox, both
axes expanded by the same margin. -/
def LineElement.overlaps (self other : LineElement) (error_margin : ℚ) : Bool :=
  let x_overlap := !(decide (self.x0 - error_margin > other.x1 + error_margin)
    || decide (other.x0 - error_margin > self.x1 + error_margin))
  let y_overlap := !(decide (self.y0 - error_margin > other.y1 + error_margin)
    || decide (other.y0 - error_margin > self.y1 + error_margin))
  x_overlap && y_overlap

/-- python's abs on rationals, written so that the kernel can evaluate it. -/
def ratAbs (q : ℚ) : ℚ := if q < 0 then -q else q

theorem ratAbs_eq_abs (q : ℚ) : ratAbs q = |q| := by
  unfold ratAbs
  split_ifs with h
  · exact (abs_of_neg h).symm
  · exact (abs_of_nonneg (not_lt.mp h)).symm

/-- LineElement.is_at_similar_height compares the y0 coordinates. -/
def LineElement.is_at_similar_height
    (self other : LineElement) (error_margin : ℚ) : Bool :=
  decide (ratAbs (self.y0 - other.y0) ≤ error_margin)

/-- Bbox: page-anchored axis-aligned rectangle with page dimensions. -/
structure Bbox where
  page : ℤ
  page_height : ℚ
  page_width : ℚ
  x0 : ℚ
  y0 : ℚ
  x1 : ℚ
  y1 : ℚ
deriving DecidableEq

/-- The invariant the two pydantic validators enforce on every
successfully constructed Bbox. -/
def Bbox.valid (b : Bbox) : Prop := b.x0 < b.x1 ∧ b.y0 < b.y1

instance (b : Bbox) : Decidable b.valid := by unfold Bbox.valid; infer_instance

/-- Bbox construction through the pydantic validators
x1_must_be_greater_than_x0 and y1_must_be_greater_than_y0: None models the
raised ValueError. -/
def mkBbox (page : ℤ) (page_height page_width x0 y0 x1 y1 : ℚ) : Option Bbox :=
  if x1 ≤ x0 then none
  else if y1 ≤ y0 then none
  else some ⟨page, page_height, page_width, x0, y0, x1, y1⟩

/-- Bbox.combine: fails on differing pages, otherwise builds the
element-wise min/max rectangle through the validated constructor, keeping
the receiver's page dimensions. -/
def Bbox.combine (self other : Bbox) : Option Bbox :=
  if self.page ≠ other.page then none
  else
    mkBbox self.page self.page_height self.page_width
      (min self.x0 other.x0) (min self.y0 other.y0)
      (max self.x1 other.x1) (max self.y1 other.y1)

/-- TextElement (schemas.py): stored text, lines, Bbox. -/
structure TextElement where
  text : String
  lines : List LineElement
  bbox : Bbox
deriving DecidableEq

/-- TableElement (schemas.py): stored text and Bbox. -/
structure TableElement where
  text : String
  bbox : Bbox
deriving DecidableEq

/-- TextElement.overlaps: False across pages, else separating-axis test
with independent x and y margins. -/
def TextElement.overlaps
    (self other : TextElement) (x_error_margin y_error_margin : ℚ) : Bool :=
  if self.bbox.page ≠ other.bbox.page then false
  else
    let x_overlap := !(decide (self.bbox.x0 - x_error_margin > other.bbox.x1 + x_error_margin)
      || decide (other.bbox.x0 - x_error_margin > self.bbox.x1 + x_error_margin))
    let y_overlap := !(decide (self.bbox.y0 - y_error_margin > other.bbox.y1 + y_error_margin)
      || decide (other.bbox.y0 - y_error_margin > self.bbox.y1 + y_error_margin))
    x_overlap && y_overlap

/-- The Union[TextElement, TableElement] content element of a Node. -/
inductive Element where
  | textE (e : TextElement)
  | tableE (e : TableElement)
deriving DecidableEq

def Element.text : Element → String
  | .textE e => e.text
  | .tableE e => e.text

def Element.bbox : Element → Bbox
  | .textE e => e.bbox
  | .tableE e => e.bbox

def Element.page (e : Element) : ℤ := e.bbox.page

/-- The tokenizer collaborator is the function argument tk.
Modelled from the spec: src/utils.num_tokens is not under src/; the spec
declares it an external pure function from text to token count, so the
node and element token counts are parameterised by an arbitrary total
function tk. -/
def Element.tokens (tk : String → ℕ) (e : Element) : ℕ := tk e.text

/-- is_at_similar_height of TextElement and TableElement: both compare y1
with the given margin (default 1 at the call site in Node.text). -/
def Element.is_at_similar_height (self other : Element) (error_margin : ℚ) : Bool :=
  decide (ratAbs (self.bbox.y1 - other.bbox.y1) ≤ error_margin)

/-- Node: ordered sequence of content elements. -/
structure Node where
  elements : List Element
deriving DecidableEq

/-- Node.tokens: sum of element token counts. -/
def Node.tokens (tk : String → ℕ) (n : Node) : ℕ :=
  (n.elements.map (Element.tokens tk)).sum

/-- One step of the defaultdict(list) grouping in Node.bbox: append the
element to its page's group, or open a new group at the end (insertion
order of first-seen pages is preserved, as for a python dict). -/
def addToGroups (e : Element) :
    List (ℤ × List Element) → List (ℤ × List Element)
  | [] => [(e.page, [e])]
  | (p, es) :: gs =>
    if p = e.page then (p, es ++ [e]) :: gs else (p, es) :: addToGroups e gs

/-- The elements_by_page defaultdict of Node.bbox. -/
def groupByPage (l : List Element) : List (ℤ × List Element) :=
  l.foldl (fun gs e => addToGroups e gs) []

/-- The per-page bounding box of Node.bbox: fold min/max over the page's
elements, page dimensions from the first element of the group; the empty
group (python min() of an empty sequence would raise) is unreachable. -/
def pageBox : ℤ × List Element → Option Bbox
  | (_, []) => none
  | (p, e0 :: es) =>
    mkBbox p e0.bbox.page_height e0.bbox.page_width
      ((es.map (fun e => e.bbox.x0)).foldl min e0.bbox.x0)
      ((es.map (fun e => e.bbox.y0)).foldl min e0.bbox.y0)
      ((es.map (fun e => e.bbox.x1)).foldl max e0.bbox.x1)
      ((es.map (fun e => e.bbox.y1)).foldl max e0.bbox.y1)

/-- Node.bbox: one aggregated box per page, in first-seen page order. -/
def Node.bbox (n : Node) : Option (List Bbox) :=
  (groupByPage n.elements).mapM pageBox

/-- Node.num_pages: number of distinct pages among the elements. -/
def Node.num_pages (n : Node) : ℕ :=
  (n.elements.map Element.page).eraseDups.length

/-- Node.start_page: min over element pages; None on an empty node models
the ValueError python's min() raises on an empty sequence. -/
def Node.start_page (n : Node) : Option ℤ :=
  (n.elements.map Element.page).min?

/-- Node.end_page: max over element pages. -/
def Node.end_page (n : Node) : Option ℤ :=
  (n.elements.map Element.page).max?

/-- Node.aggregate_position: (min page, min y0, min x0); None on an empty
node. -/
def Node.aggregate_position (n : Node) : Option (ℤ × ℚ × ℚ) :=
  match (n.elements.map Element.page).min?,
      (n.elements.map (fun e => e.bbox.y0)).min?,
      (n.elements.map (fun e => e.bbox.x0)).min? with
  | some p, some y, some x => some (p, y, x)
  | _, _, _ => none

/-- The sort key of Node.text: (page, -y1, x0). -/
def elemKey (e : Element) : ℤ × ℚ × ℚ := (e.page, -e.bbox.y1, e.bbox.x0)

/-- Strict lexicographic comparison of sort keys. -/
def keyLt (k1 k2 : ℤ × ℚ × ℚ) : Bool :=
  decide (k1.1 < k2.1) ||
    (decide (k1.1 = k2.1) &&
      (decide (k1.2.1 < k2.2.1) ||
        (decide (k1.2.1 = k2.2.1) && decide (k1.2.2 < k2.2.2))))

/-- Stable insertion of an element into a key-sorted list: the element is
placed before the first entry whose key is not smaller, as python's stable
sort would. -/
def insertKeyed (x : Element) : List Element → List Element
  | [] => [x]
  | y :: ys =>
    if keyLt (elemKey y) (elemKey x) then y :: insertKeyed x ys else x :: y :: ys

/-- The sorted(elements, key=...) of Node.text as a stable insertion sort. -/
def sortElements (l : List Element) : List Element :=
  l.foldr insertKeyed []

/-- The separator loop of Node.text over the already-sorted tail: a space
when the element is at similar height (margin 1) to its predecessor, else
the literal block separator the source writes, then the element text. -/
def joinRun : Element → List Element → String
  | _, [] => ""
  | prev, e :: rest =>
    (if e.is_at_similar_height prev 1 then " " ++ e.text else "<br>" ++ e.text)
      ++ joinRun e rest

/-- Node.text: elements sorted by (page, -y1, x0), first element plain,
every later element preceded by a space or the block separator. -/
def Node.text (n : Node) : String :=
  match sortElements n.elements with
  | [] => ""
  | e :: rest => e.text ++ joinRun e rest

/-- The separating-axis test of the Node.overlaps loop body. -/
def bboxOverlap (bb ob : Bbox) (x_error_margin y_error_margin : ℚ) : Bool :=
  let x_overlap := !(decide (bb.x0 - x_error_margin > ob.x1 + x_error_margin)
    || decide (ob.x0 - x_error_margin > bb.x1 + x_error_margin))
  let y_overlap := !(decide (bb.y0 - y_error_margin > ob.y1 + y_error_margin)
    || decide (ob.y0 - y_error_margin > bb.y1 + y_error_margin))
  x_overlap && y_overlap

/-- Node.overlaps: for each own per-page box, test the other node's boxes
of the same page; None models a failure while computing a bbox property
(for the other node this can only surface when the own box list is
non-empty, since python evaluates other.bbox inside the loop body). -/
def Node.overlaps
    (self other : Node) (x_error_margin y_error_margin : ℚ) : Option Bool :=
  match self.bbox with
  | none => none
  | some [] => some false
  | some bs =>
    match other.bbox with
    | none => none
    | some obs =>
      some (bs.any fun bb =>
        (obs.filter fun ob => ob.page == bb.page).any fun ob =>
          bboxOverlap bb ob x_error_margin y_error_margin)

/-! ### Concrete values used by counterexamples and witnesses -/

def wSpanBoldA : TextSpan := ⟨"A", true, false, 12⟩
def wSpanBoldB : TextSpan := ⟨"B", true, false, 12⟩
def wSpanPlain : TextSpan := ⟨"p", false, false, 12⟩
def wLineEmpty : LineElement := ⟨(0, 0, 1, 1), [], none⟩
def wLineTwo : LineElement := ⟨(0, 0, 1, 1), [wSpanBoldA, wSpanPlain], none⟩
def wBoxA : Bbox := ⟨1, 10, 10, 0, 0, 10, 10⟩
def wBoxB : Bbox := ⟨1, 20, 10, 5, 5, 15, 15⟩
def wBoxA2 : Bbox := ⟨1, 100, 50, 0, 0, 10, 10⟩
def wBoxB2 : Bbox := ⟨1, 100, 50, 5, 5, 15, 15⟩

/-! ### C10 -/

/-- Claim C10: for every LineElement whose spans sequence is empty, text is
the empty string while is_bold, is_italic and is_heading are all True (the
conjunction over zero spans is vacuously true). -/
theorem C10_empty_spans (le : LineElement) (h : le.spans = []) :
    le.text = "" ∧ le.is_bold = true ∧ le.is_italic = true ∧
      le.is_heading = true := by
  unfold LineElement.text LineElement.is_bold LineElement.is_italic
    LineElement.is_heading LineElement.votingSpans
  rw [h]
  simp

theorem C10_empty_spans_witness :
    wLineEmpty.text = "" ∧ wLineEmpty.is_bold = true ∧
      wLineEmpty.is_italic = true ∧ wLineEmpty.is_heading = true :=
  C10_empty_spans wLineEmpty (by decide)

/-! ### C7 -/

/-- Claim C7: for every LineElement with more than one span, is_bold,
is_italic and is_heading are each the conjunction of the corresponding
per-span predicate over all spans except the last; with exactly one span,
that span is included in the conjunction. -/
theorem C7_style_voting (le : LineElement) :
    (1 < le.spans.length →
      le.is_bold = le.spans.dropLast.all (fun s => s.is_bold) ∧
      le.is_italic = le.spans.dropLast.all (fun s => s.is_italic) ∧
      le.is_heading = le.spans.dropLast.all TextSpan.is_heading) ∧
    (le.spans.length = 1 →
      le.is_bold = le.spans.all (fun s => s.is_bold) ∧
      le.is_italic = le.spans.all (fun s => s.is_italic) ∧
      le.is_heading = le.spans.all TextSpan.is_heading) := by
  unfold LineElement.is_bold LineElement.is_italic LineElement.is_heading
    LineElement.votingSpans TextSpan.is_heading
  constructor
  · intro h
    rw [if_pos h]
    exact ⟨rfl, rfl, rfl⟩
  · intro h
    rw [if_neg (by omega)]
    exact ⟨rfl, rfl, rfl⟩

theorem C7_style_voting_witness :
    wLineTwo.is_bold = wLineTwo.spans.dropLast.all (fun s => s.is_bold) ∧
      wLineTwo.is_italic = wLineTwo.spans.dropLast.all (fun s => s.is_italic) ∧
      wLineTwo.is_heading = wLineTwo.spans.dropLast.all TextSpan.is_heading :=
  (C7_style_voting wLineTwo).1 (by decide)

/-! ### C4 -/

/-- Counterexample to claim C4: the fifth cleanup rule also inserts a
space between adjacent double markers of DIFFERING kinds; on the input
holding two stars then two underscores the rule, and the whole cleanup
pass, produce the two markers separated by a space. -/
theorem C4_counterexample :
    rule5 ('*' :: '*' :: '_' :: '_' :: []) =
        '*' :: '*' :: ' ' :: '_' :: '_' :: [] ∧
      clean_markdown_formatting "**__" = "** __" := by decide

/-- Claim C4 (amended): the fifth markdown-cleanup rule inserts a single
space between ANY two adjacent double markers, whether the two are
identical or of differing kinds. -/
theorem C4_rule5_inserts_space (m1 m2 : Char) (t : List Char)
    (h1 : m1 = '*' ∨ m1 = '_') (h2 : m2 = '*' ∨ m2 = '_') :
    rule5 (m1 :: m1 :: m2 :: m2 :: t) =
      m1 :: m1 :: ' ' :: m2 :: m2 :: rule5 t := by
  have d1 : isDbl m1 m1 = true := by
    rcases h1 with h | h <;> subst h <;> decide
  have d2 : isDbl m2 m2 = true := by
    rcases h2 with h | h <;> subst h <;> decide
  simp only [rule5, d1, d2, Bool.and_self, if_pos]

theorem C4_rule5_inserts_space_witness :
    rule5 ('*' :: '*' :: '_' :: '_' :: []) =
      '*' :: '*' :: ' ' :: '_' :: '_' :: rule5 [] :=
  C4_rule5_inserts_space '*' '_' [] (Or.inl rfl) (Or.inr rfl)

/-! ### C6 -/

/-- Claim C6: Bbox construction fails exactly when x1 is at most x0 or y1
is at most y0, and combine of two valid boxes fails exactly when the pages
differ; on equal pages it returns the element-wise min/max box carrying
the receiver's page dimensions. -/
theorem C6_construction_contract :
    (∀ (page : ℤ) (ph pw x0 y0 x1 y1 : ℚ),
        mkBbox page ph pw x0 y0 x1 y1 = none ↔ (x1 ≤ x0 ∨ y1 ≤ y0)) ∧
    (∀ a b : Bbox, a.valid → b.valid →
        ((a.combine b = none ↔ a.page ≠ b.page) ∧
          (a.page = b.page →
            a.combine b = some ⟨a.page, a.page_height, a.page_width,
              min a.x0 b.x0, min a.y0 b.y0, max a.x1 b.x1, max a.y1 b.y1⟩))) := by
  have hmk : ∀ (page : ℤ) (ph pw x0 y0 x1 y1 : ℚ),
      mkBbox page ph pw x0 y0 x1 y1 = none ↔ (x1 ≤ x0 ∨ y1 ≤ y0) := by
    intro page ph pw x0 y0 x1 y1
    unfold mkBbox
    split_ifs with h1 h2
    · simp [h1]
    · simp [h2]
    · simp [h1, h2]
  refine ⟨hmk, ?_⟩
  intro a b ha hb
  have hx : min a.x0 b.x0 < max a.x1 b.x1 :=
    lt_of_le_of_lt (min_le_left _ _) (lt_of_lt_of_le ha.1 (le_max_left _ _))
  have hy : min a.y0 b.y0 < max a.y1 b.y1 :=
    lt_of_le_of_lt (min_le_left _ _) (lt_of_lt_of_le ha.2 (le_max_left _ _))
  constructor
  · unfold Bbox.combine
    split_ifs with hp
    · simp [hp]
    · simp only [hp, iff_false]
      unfold mkBbox
      rw [if_neg (not_le.mpr hx), if_neg (not_le.mpr hy)]
      simp
  · intro hp
    unfold Bbox.combine
    rw [if_neg (by simp [hp])]
    unfold mkBbox
    rw [if_neg (not_le.mpr hx), if_neg (not_le.mpr hy)]

theorem C6_construction_contract_witness :
    (mkBbox 1 10 10 0 0 0 10 = none) ∧
      (wBoxA.combine wBoxB = none ↔ wBoxA.page ≠ wBoxB.page) :=
  ⟨(C6_construction_contract.1 1 10 10 0 0 0 10).mpr (Or.inl le_rfl),
    (C6_construction_contract.2 wBoxA wBoxB (by decide) (by decide)).1⟩

/-! ### C3 -/

/-- Counterexample to claim C3: combine keeps the receiver's page_height
and page_width, so two same-page boxes with differing page heights give
different results in the two orders; the claim's for-all-fields
commutativity fails. -/
theorem C3_counterexample : wBoxA.combine wBoxB ≠ wBoxB.combine wBoxA := by
  decide

/-- One box encloses another when it contains its rectangle. -/
def Bbox.encloses (outer inner : Bbox) : Prop :=
  outer.x0 ≤ inner.x0 ∧ outer.y0 ≤ inner.y0 ∧
    inner.x1 ≤ outer.x1 ∧ inner.y1 ≤ outer.y1

/-- Claim C3 (amended): for boxes sharing page_height and page_width,
combine is commutative; and for two valid boxes on the same page the
result is the minimal enclosing rectangle (so for the boxes
(0,0,10,10) and (5,5,15,15) on page 1 the combined coordinates are
(0,0,15,15)). -/
theorem C3_combine_commutes (a b : Bbox)
    (hh : a.page_height = b.page_height) (hw : a.page_width = b.page_width) :
    a.combine b = b.combine a ∧
    (a.page = b.page → a.valid → b.valid →
      ∃ r, a.combine b = some r ∧ r.encloses a ∧ r.encloses b ∧
        ∀ r2 : Bbox, r2.encloses a → r2.encloses b → r2.encloses r) := by
  constructor
  · unfold Bbox.combine
    rcases eq_or_ne a.page b.page with hp | hp
    · rw [if_neg (by simp [hp]), if_neg (by simp [hp.symm]), hp, hh, hw,
        min_comm a.x0 b.x0, min_comm a.y0 b.y0,
        max_comm a.x1 b.x1, max_comm a.y1 b.y1]
    · rw [if_pos hp, if_pos (Ne.symm hp)]
  · intro hp ha hb
    have hx : min a.x0 b.x0 < max a.x1 b.x1 :=
      lt_of_le_of_lt (min_le_left _ _) (lt_of_lt_of_le ha.1 (le_max_left _ _))
    have hy : min a.y0 b.y0 < max a.y1 b.y1 :=
      lt_of_le_of_lt (min_le_left _ _) (lt_of_lt_of_le ha.2 (le_max_left _ _))
    refine ⟨⟨a.page, a.page_height, a.page_width,
      min a.x0 b.x0, min a.y0 b.y0, max a.x1 b.x1, max a.y1 b.y1⟩, ?_, ?_, ?_, ?_⟩
    · unfold Bbox.combine
      rw [if_neg (by simp [hp])]
      unfold mkBbox
      rw [if_neg (not_le.mpr hx), if_neg (not_le.mpr hy)]
    · exact ⟨min_le_left _ _, min_le_left _ _, le_max_left _ _, le_max_left _ _⟩
    · exact ⟨min_le_right _ _, min_le_right _ _, le_max_right _ _, le_max_right _ _⟩
    · intro r2 h2a h2b
      exact ⟨le_min h2a.1 h2b.1, le_min h2a.2.1 h2b.2.1,
        max_le h2a.2.2.1 h2b.2.2.1, max_le h2a.2.2.2 h2b.2.2.2⟩

theorem C3_combine_commutes_witness :
    wBoxA2.combine wBoxB2 = wBoxB2.combine wBoxA2 ∧
      wBoxA2.combine wBoxB2 = some ⟨1, 100, 50, 0, 0, 15, 15⟩ :=
  ⟨(C3_combine_commutes wBoxA2 wBoxB2 rfl rfl).1, by decide⟩

/-! ### The grouping of Node.bbox -/

theorem foldl_min_le_init (l : List ℚ) (a : ℚ) : l.foldl min a ≤ a := by
  induction l generalizing a with
  | nil => exact le_rfl
  | cons x xs ih => exact le_trans (ih (min a x)) (min_le_left a x)

theorem init_le_foldl_max (l : List ℚ) (a : ℚ) : a ≤ l.foldl max a := by
  induction l generalizing a with
  | nil => exact le_rfl
  | cons x xs ih => exact le_trans (le_max_left a x) (ih (max a x))

theorem groupByPage_concat (l : List Element) (e : Element) :
    groupByPage (l ++ [e]) = addToGroups e (groupByPage l) := by
  unfold groupByPage
  rw [List.foldl_append]
  rfl

theorem addToGroups_fst (e : Element) (gs : List (ℤ × List Element)) :
    (addToGroups e gs).map Prod.fst =
      if e.page ∈ gs.map Prod.fst then gs.map Prod.fst
      else gs.map Prod.fst ++ [e.page] := by
  induction gs with
  | nil => simp [addToGroups]
  | cons g gs ih =>
    obtain ⟨p, es⟩ := g
    by_cases hp : p = e.page
    · subst hp
      simp [addToGroups]
    · simp only [addToGroups, if_neg hp, List.map_cons, ih]
      by_cases hin : e.page ∈ gs.map Prod.fst
      · rw [if_pos hin, if_pos (List.mem_cons_of_mem p hin)]
      · rw [if_neg hin, if_neg (fun hc => by
          rcases List.mem_cons.mp hc with hc2 | hc2
          · exact hp hc2.symm
          · exact hin hc2)]
        simp

theorem addToGroups_mem {e : Element} {gs : List (ℤ × List Element)}
    {q : ℤ} {fs : List Element} (hnd : (gs.map Prod.fst).Nodup)
    (h : (q, fs) ∈ addToGroups e gs) :
    ((q, fs) ∈ gs ∧ q ≠ e.page) ∨
    (q = e.page ∧ ∃ fs2, (q, fs2) ∈ gs ∧ fs = fs2 ++ [e]) ∨
    (q = e.page ∧ e.page ∉ gs.map Prod.fst ∧ fs = [e]) := by
  induction gs with
  | nil =>
    simp only [addToGroups, List.mem_singleton, Prod.mk.injEq] at h
    exact Or.inr (Or.inr ⟨h.1, by simp, h.2⟩)
  | cons g gs ih =>
    obtain ⟨p, es⟩ := g
    simp only [List.map_cons, List.nodup_cons] at hnd
    by_cases hp : p = e.page
    · subst hp
      rw [show addToGroups e ((e.page, es) :: gs) = (e.page, es ++ [e]) :: gs
        from by simp [addToGroups]] at h
      rcases List.mem_cons.mp h with heq | htail
      · rw [Prod.mk.injEq] at heq
        obtain ⟨hq1, hq2⟩ := heq
        subst hq1
        subst hq2
        exact Or.inr (Or.inl ⟨rfl, es, List.mem_cons_self _ _, rfl⟩)
      · have hq : q ≠ e.page := by
          intro hqe
          subst hqe
          exact hnd.1 (List.mem_map.mpr ⟨(e.page, fs), htail, rfl⟩)
        exact Or.inl ⟨List.mem_cons_of_mem _ htail, hq⟩
    · rw [show addToGroups e ((p, es) :: gs) = (p, es) :: addToGroups e gs
        from by simp [addToGroups, hp]] at h
      rcases List.mem_cons.mp h with heq | htail
      · rw [Prod.mk.injEq] at heq
        obtain ⟨hq1, hq2⟩ := heq
        subst hq1
        subst hq2
        exact Or.inl ⟨List.mem_cons_self _ _, hp⟩
      · rcases ih hnd.2 htail with ⟨h1, h2⟩ | ⟨h1, fs2, h2, h3⟩ | ⟨h1, h2, h3⟩
        · exact Or.inl ⟨List.mem_cons_of_mem _ h1, h2⟩
        · exact Or.inr (Or.inl ⟨h1, fs2, List.mem_cons_of_mem _ h2, h3⟩)
        · refine Or.inr (Or.inr ⟨h1, ?_, h3⟩)
          simp only [List.map_cons, List.mem_cons]
          rintro (hc | hc)
          · exact hp hc.symm
          · exact h2 hc

theorem groupByPage_nodup (l : List Element) :
    ((groupByPage l).map Prod.fst).Nodup := by
  induction l using List.reverseRecOn with
  | nil => simp [groupByPage]
  | append_singleton l e ih =>
    rw [groupByPage_concat, addToGroups_fst]
    split_ifs with hmem
    · exact ih
    · rw [List.nodup_append]
      exact ⟨ih, List.nodup_singleton _, by simpa using hmem⟩

theorem groupByPage_fst_mem (l : List Element) (p : ℤ) :
    p ∈ (groupByPage l).map Prod.fst ↔ p ∈ l.map Element.page := by
  induction l using List.reverseRecOn with
  | nil => simp [groupByPage]
  | append_singleton l e ih =>
    rw [groupByPage_concat, addToGroups_fst]
    split_ifs with hmem
    · simp only [List.map_append, List.map_cons, List.map_nil, List.mem_append,
        List.mem_singleton]
      constructor
      · intro h
        exact Or.inl (ih.mp h)
      · rintro (h | h)
        · exact ih.mpr h
        · subst h
          exact hmem
    · simp only [List.map_append, List.map_cons, List.map_nil, List.mem_append,
        List.mem_singleton, ih]

theorem groupByPage_filter (l : List Element) :
    ∀ q fs, (q, fs) ∈ groupByPage l → fs = l.filter (fun x => x.page == q) := by
  induction l using List.reverseRecOn with
  | nil =>
    intro q fs h
    simp [groupByPage] at h
  | append_singleton l e ih =>
    intro q fs h
    rw [groupByPage_concat] at h
    rcases addToGroups_mem (groupByPage_nodup l) h with
      ⟨h1, h2⟩ | ⟨h1, fs2, h2, h3⟩ | ⟨h1, h2, h3⟩
    · have hpred : (Element.page e == q) = false :=
        beq_eq_false_iff_ne.mpr (fun hc => h2 hc.symm)
      rw [List.filter_append, ← ih q fs h1, List.filter_singleton, hpred]
      simp
    · subst h1
      have hpred : (Element.page e == e.page) = true := beq_self_eq_true _
      rw [List.filter_append, ← ih e.page fs2 h2, List.filter_singleton, hpred,
        h3]
      simp
    · subst h1
      rw [groupByPage_fst_mem] at h2
      have hnil : l.filter (fun x => x.page == e.page) = [] := by
        rw [List.filter_eq_nil_iff]
        intro a ha hc
        exact h2 (List.mem_map.mpr ⟨a, ha, by simpa using hc⟩)
      have hpred : (Element.page e == e.page) = true := beq_self_eq_true _
      rw [List.filter_append, hnil, List.filter_singleton, hpred, h3]
      simp

theorem groupByPage_snd_ne_nil (l : List Element) {q : ℤ} {fs : List Element}
    (h : (q, fs) ∈ groupByPage l) : fs ≠ [] := by
  have hq : q ∈ (groupByPage l).map Prod.fst :=
    List.mem_map.mpr ⟨(q, fs), h, rfl⟩
  rw [groupByPage_fst_mem] at hq
  obtain ⟨a, ha, hpa⟩ := List.mem_map.mp hq
  have : a ∈ fs := by
    rw [groupByPage_filter l q fs h]
    exact List.mem_filter.mpr ⟨ha, by simpa using hpa⟩
  intro hnil
  rw [hnil] at this
  exact List.not_mem_nil a this

theorem mkBbox_eq_some {page : ℤ} {ph pw x0 y0 x1 y1 : ℚ} {b : Bbox}
    (h : mkBbox page ph pw x0 y0 x1 y1 = some b) :
    b = ⟨page, ph, pw, x0, y0, x1, y1⟩ := by
  unfold mkBbox at h
  split_ifs at h
  exact (Option.some.injEq _ _ ▸ h).symm

/-- pageBox succeeds on a non-empty group of elements with valid boxes. -/
theorem pageBox_isSome {q : ℤ} {fs : List Element}
    (hne : fs ≠ []) (hv : ∀ e ∈ fs, e.bbox.valid) :
    ∃ b, pageBox (q, fs) = some b := by
  obtain ⟨e0, es, rfl⟩ := List.exists_cons_of_ne_nil hne
  have hv0 := hv e0 (List.mem_cons_self _ _)
  have hx : (es.map (fun e => e.bbox.x0)).foldl min e0.bbox.x0 <
      (es.map (fun e => e.bbox.x1)).foldl max e0.bbox.x1 :=
    lt_of_le_of_lt (foldl_min_le_init _ _)
      (lt_of_lt_of_le hv0.1 (init_le_foldl_max _ _))
  have hy : (es.map (fun e => e.bbox.y0)).foldl min e0.bbox.y0 <
      (es.map (fun e => e.bbox.y1)).foldl max e0.bbox.y1 :=
    lt_of_le_of_lt (foldl_min_le_init _ _)
      (lt_of_lt_of_le hv0.2 (init_le_foldl_max _ _))
  have hstep : pageBox (q, e0 :: es) =
      mkBbox q e0.bbox.page_height e0.bbox.page_width
        ((es.map (fun e => e.bbox.x0)).foldl min e0.bbox.x0)
        ((es.map (fun e => e.bbox.y0)).foldl min e0.bbox.y0)
        ((es.map (fun e => e.bbox.x1)).foldl max e0.bbox.x1)
        ((es.map (fun e => e.bbox.y1)).foldl max e0.bbox.y1) := rfl
  have hres : pageBox (q, e0 :: es) =
      some ⟨q, e0.bbox.page_height, e0.bbox.page_width,
        (es.map (fun e => e.bbox.x0)).foldl min e0.bbox.x0,
        (es.map (fun e => e.bbox.y0)).foldl min e0.bbox.y0,
        (es.map (fun e => e.bbox.x1)).foldl max e0.bbox.x1,
        (es.map (fun e => e.bbox.y1)).foldl max e0.bbox.y1⟩ := by
    rw [hstep]
    unfold mkBbox
    rw [if_neg (not_le.mpr hx), if_neg (not_le.mpr hy)]
  exact ⟨_, hres⟩

theorem mapM_eq_some {α β : Type} {f : α → Option β} :
    ∀ {l : List α} {bs : List β}, l.mapM f = some bs →
      List.Forall₂ (fun a b => f a = some b) l bs := by
  intro l
  induction l with
  | nil =>
    intro bs h
    rw [List.mapM_nil] at h
    cases h
    exact List.Forall₂.nil
  | cons a l ih =>
    intro bs h
    rw [List.mapM_cons] at h
    cases hfa : f a with
    | none => rw [hfa] at h; cases h
    | some b =>
      rw [hfa] at h
      cases hml : l.mapM f with
      | none => rw [hml] at h; cases h
      | some bs2 =>
        rw [hml] at h
        cases h
        exact List.Forall₂.cons hfa (ih hml)

theorem mapM_isSome {α β : Type} {f : α → Option β} {l : List α}
    (h : ∀ x ∈ l, ∃ b, f x = some b) : ∃ bs, l.mapM f = some bs := by
  induction l with
  | nil => exact ⟨[], rfl⟩
  | cons a l ih =>
    obtain ⟨b, hb⟩ := h a (List.mem_cons_self _ _)
    obtain ⟨bs, hbs⟩ := ih (fun x hx => h x (List.mem_cons_of_mem _ hx))
    exact ⟨b :: bs, by rw [List.mapM_cons, hb, hbs]; rfl⟩

theorem forall₂_mem_right {α β : Type} {R : α → β → Prop} :
    ∀ {l : List α} {bs : List β}, List.Forall₂ R l bs →
      ∀ b ∈ bs, ∃ a ∈ l, R a b := by
  intro l bs h
  induction h with
  | nil => intro b hb; cases hb
  | cons hr _ ih =>
    intro b hb
    rcases List.mem_cons.mp hb with hb | hb
    · subst hb
      exact ⟨_, List.mem_cons_self _ _, hr⟩
    · obtain ⟨a, ha, har⟩ := ih b hb
      exact ⟨a, List.mem_cons_of_mem _ ha, har⟩

theorem forall₂_map_eq {α β γ : Type} {R : α → β → Prop}
    {f : α → γ} {g : β → γ} (hfg : ∀ a b, R a b → f a = g b) :
    ∀ {l : List α} {bs : List β}, List.Forall₂ R l bs →
      bs.map g = l.map f := by
  intro l bs h
  induction h with
  | nil => rfl
  | cons hr _ ih => simp [ih, hfg _ _ hr]

theorem pageBox_page {q : ℤ} {fs : List Element} {b : Bbox}
    (h : pageBox (q, fs) = some b) : b.page = q := by
  cases fs with
  | nil => cases h
  | cons e0 es =>
    unfold pageBox at h
    rw [mkBbox_eq_some h]

/-- All elements of every group of groupByPage have valid boxes when the
whole list does, since each group is a filter of the list. -/
theorem group_valid {l : List Element} (hv : ∀ e ∈ l, e.bbox.valid)
    {q : ℤ} {fs : List Element} (h : (q, fs) ∈ groupByPage l) :
    ∀ e ∈ fs, e.bbox.valid := by
  intro e he
  rw [groupByPage_filter l q fs h] at he
  exact hv e (List.mem_filter.mp he).1

theorem node_bbox_some (n : Node) (hv : ∀ e ∈ n.elements, e.bbox.valid) :
    ∃ bs, n.bbox = some bs := by
  unfold Node.bbox
  exact mapM_isSome (fun g hg => by
    obtain ⟨q, fs⟩ := g
    exact pageBox_isSome (groupByPage_snd_ne_nil _ hg) (group_valid hv hg))

/-! ### C2 -/

/-- Counterexample to claim C2: Node construction accepts the empty
element sequence, but start_page, end_page and aggregate_position then
fail at read time (python's min()/max() raise ValueError on an empty
sequence, modelled by None). -/
theorem C2_counterexample :
    (Node.mk []).start_page = none ∧ (Node.mk []).end_page = none ∧
      (Node.mk []).aggregate_position = none :=
  ⟨rfl, rfl, rfl⟩

def wElemP1 : Element := .textE ⟨"A", [], ⟨1, 300, 200, 10, 110, 20, 200⟩⟩
def wElemP2 : Element := .textE ⟨"B", [], ⟨2, 300, 200, 10, 10, 20, 100⟩⟩
def wElemP1b : Element := .tableE ⟨"C", ⟨1, 300, 200, 30, 10, 50, 90⟩⟩
def wNode1 : Node := ⟨[wElemP1]⟩
def wNode3 : Node := ⟨[wElemP1, wElemP2, wElemP1b]⟩

/-- Claim C2 (amended): for every Node holding at least one element (all
of whose boxes satisfy the construction invariant, as every python Bbox
does), the derived properties bbox, start_page, end_page and
aggregate_position all evaluate without failure; tokens, text and
num_pages are total for every Node, but on a Node constructed from an
empty element sequence the three min/max based properties fail at read
time. -/
theorem C2_derived_reads (n : Node) (hne : n.elements ≠ [])
    (hv : ∀ e ∈ n.elements, e.bbox.valid) :
    (∃ bs, n.bbox = some bs) ∧ (∃ p, n.start_page = some p) ∧
      (∃ p, n.end_page = some p) ∧ (∃ a, n.aggregate_position = some a) := by
  obtain ⟨e0, es, he⟩ := List.exists_cons_of_ne_nil hne
  refine ⟨node_bbox_some n hv, ?_, ?_, ?_⟩
  · unfold Node.start_page
    rw [he]
    exact ⟨_, rfl⟩
  · unfold Node.end_page
    rw [he]
    exact ⟨_, rfl⟩
  · unfold Node.aggregate_position
    rw [he]
    exact ⟨_, rfl⟩

theorem C2_derived_reads_witness :
    (∃ bs, wNode1.bbox = some bs) ∧ (∃ p, wNode1.start_page = some p) ∧
      (∃ p, wNode1.end_page = some p) ∧
      (∃ a, wNode1.aggregate_position = some a) :=
  C2_derived_reads wNode1 (by decide) (by decide)

/-! ### C8 -/

/-- Claim C8: Node.bbox yields exactly one box per distinct page among the
elements (the box pages are distinct and range over exactly the element
pages); each page's box has x0 and y0 the minima and x1 and y1 the maxima
over that page's elements and carries the page dimensions of the
first-seen element on that page. -/
theorem C8_bbox_per_page (n : Node) (hv : ∀ e ∈ n.elements, e.bbox.valid) :
    ∃ bs, n.bbox = some bs ∧
      (bs.map Bbox.page).Nodup ∧
      (∀ p, p ∈ bs.map Bbox.page ↔ p ∈ n.elements.map Element.page) ∧
      ∀ b ∈ bs,
        ((n.elements.filter (fun e => e.page == b.page)).map
          (fun e => e.bbox.x0)).min? = some b.x0 ∧
        ((n.elements.filter (fun e => e.page == b.page)).map
          (fun e => e.bbox.y0)).min? = some b.y0 ∧
        ((n.elements.filter (fun e => e.page == b.page)).map
          (fun e => e.bbox.x1)).max? = some b.x1 ∧
        ((n.elements.filter (fun e => e.page == b.page)).map
          (fun e => e.bbox.y1)).max? = some b.y1 ∧
        ∃ e0, (n.elements.filter (fun e => e.page == b.page)).head? = some e0 ∧
          b.page_height = e0.bbox.page_height ∧
          b.page_width = e0.bbox.page_width := by
  obtain ⟨bs, hbs⟩ := node_bbox_some n hv
  have hfa : List.Forall₂ (fun g b => pageBox g = some b)
      (groupByPage n.elements) bs := mapM_eq_some hbs
  have hmap : bs.map Bbox.page = (groupByPage n.elements).map Prod.fst :=
    forall₂_map_eq (fun g b hgb => by
      obtain ⟨q, fs⟩ := g
      exact (pageBox_page hgb).symm) hfa
  refine ⟨bs, hbs, ?_, ?_, ?_⟩
  · rw [hmap]
    exact groupByPage_nodup _
  · intro p
    rw [hmap]
    exact groupByPage_fst_mem _ p
  · intro b hb
    obtain ⟨g, hg, hpb⟩ := forall₂_mem_right hfa b hb
    obtain ⟨q, fs⟩ := g
    have hfs := groupByPage_filter n.elements q fs hg
    have hnenil := groupByPage_snd_ne_nil n.elements hg
    obtain ⟨e0, es, rfl⟩ := List.exists_cons_of_ne_nil hnenil
    have hstep : pageBox (q, e0 :: es) =
        mkBbox q e0.bbox.page_height e0.bbox.page_width
          ((es.map (fun e => e.bbox.x0)).foldl min e0.bbox.x0)
          ((es.map (fun e => e.bbox.y0)).foldl min e0.bbox.y0)
          ((es.map (fun e => e.bbox.x1)).foldl max e0.bbox.x1)
          ((es.map (fun e => e.bbox.y1)).foldl max e0.bbox.y1) := rfl
    rw [hstep] at hpb
    have hbval := mkBbox_eq_some hpb
    have hpage : b.page = q := by rw [hbval]
    simp only [hpage, ← hfs, hbval]
    exact ⟨rfl, rfl, rfl, rfl, e0, rfl, rfl, rfl⟩

theorem C8_bbox_per_page_witness :
    ∃ bs, wNode3.bbox = some bs ∧
      (bs.map Bbox.page).Nodup ∧
      (∀ p, p ∈ bs.map Bbox.page ↔ p ∈ wNode3.elements.map Element.page) ∧
      ∀ b ∈ bs,
        ((wNode3.elements.filter (fun e => e.page == b.page)).map
          (fun e => e.bbox.x0)).min? = some b.x0 ∧
        ((wNode3.elements.filter (fun e => e.page == b.page)).map
          (fun e => e.bbox.y0)).min? = some b.y0 ∧
        ((wNode3.elements.filter (fun e => e.page == b.page)).map
          (fun e => e.bbox.x1)).max? = some b.x1 ∧
        ((wNode3.elements.filter (fun e => e.page == b.page)).map
          (fun e => e.bbox.y1)).max? = some b.y1 ∧
        ∃ e0,
          (wNode3.elements.filter (fun e => e.page == b.page)).head? = some e0 ∧
          b.page_height = e0.bbox.page_height ∧
          b.page_width = e0.bbox.page_width :=
  C8_bbox_per_page wNode3 (by decide)

/-! ### C9 -/

theorem lineOverlaps_symm (a b : LineElement) (m : ℚ) :
    a.overlaps b m = b.overlaps a m := by
  unfold LineElement.overlaps
  rw [Bool.or_comm (decide (a.x0 - m > b.x1 + m)),
    Bool.or_comm (decide (a.y0 - m > b.y1 + m))]

theorem textOverlaps_symm (a b : TextElement) (mx my : ℚ) :
    a.overlaps b mx my = b.overlaps a mx my := by
  unfold TextElement.overlaps
  rcases eq_or_ne a.bbox.page b.bbox.page with hp | hp
  · rw [if_neg (by simp [hp]), if_neg (by simp [hp.symm]),
      Bool.or_comm (decide (a.bbox.x0 - mx > b.bbox.x1 + mx)),
      Bool.or_comm (decide (a.bbox.y0 - my > b.bbox.y1 + my))]
  · rw [if_pos hp, if_pos (Ne.symm hp)]

theorem bboxOverlap_symm (x y : Bbox) (mx my : ℚ) :
    bboxOverlap x y mx my = bboxOverlap y x mx my := by
  unfold bboxOverlap
  rw [Bool.or_comm (decide (x.x0 - mx > y.x1 + mx)),
    Bool.or_comm (decide (x.y0 - my > y.y1 + my))]

theorem anyPairOverlap_symm (bs obs : List Bbox) (mx my : ℚ) :
    (bs.any fun bb => (obs.filter fun ob => ob.page == bb.page).any fun ob =>
        bboxOverlap bb ob mx my) =
      (obs.any fun bb => (bs.filter fun ob => ob.page == bb.page).any fun ob =>
        bboxOverlap bb ob mx my) := by
  rw [Bool.eq_iff_iff]
  simp only [List.any_eq_true, List.mem_filter]
  constructor
  · rintro ⟨bb, hbb, ob, ⟨hob, hpage⟩, hov⟩
    refine ⟨ob, hob, bb, ⟨hbb, ?_⟩, ?_⟩
    · rw [beq_iff_eq] at hpage ⊢
      exact hpage.symm
    · rw [bboxOverlap_symm]
      exact hov
  · rintro ⟨bb, hbb, ob, ⟨hob, hpage⟩, hov⟩
    refine ⟨ob, hob, bb, ⟨hbb, ?_⟩, ?_⟩
    · rw [beq_iff_eq] at hpage ⊢
      exact hpage.symm
    · rw [bboxOverlap_symm]
      exact hov

theorem nodeOverlaps_symm (a b : Node) (mx my : ℚ)
    (hva : ∀ e ∈ a.elements, e.bbox.valid)
    (hvb : ∀ e ∈ b.elements, e.bbox.valid) :
    a.overlaps b mx my = b.overlaps a mx my := by
  obtain ⟨bs, hbsa⟩ := node_bbox_some a hva
  obtain ⟨obs, hbsb⟩ := node_bbox_some b hvb
  unfold Node.overlaps
  rw [hbsa, hbsb]
  cases bs with
  | nil =>
    cases obs with
    | nil => rfl
    | cons ob obs2 => simp
  | cons bb bs2 =>
    cases obs with
    | nil => simp
    | cons ob obs2 =>
      exact congrArg some (anyPairOverlap_symm (bb :: bs2) (ob :: obs2) mx my)

/-- Claim C9: the three overlaps predicates are symmetric: LineElement
pairs under any margin, TextElement pairs under any x/y margins, and Node
pairs under any x/y margins (the python-reachable nodes, whose element
boxes all satisfy the construction invariant). -/
theorem C9_overlaps_symmetric :
    (∀ (a b : LineElement) (m : ℚ), a.overlaps b m = b.overlaps a m) ∧
    (∀ (a b : TextElement) (mx my : ℚ),
      a.overlaps b mx my = b.overlaps a mx my) ∧
    (∀ (a b : Node) (mx my : ℚ),
      (∀ e ∈ a.elements, e.bbox.valid) → (∀ e ∈ b.elements, e.bbox.valid) →
        a.overlaps b mx my = b.overlaps a mx my) :=
  ⟨lineOverlaps_symm, textOverlaps_symm,
    fun a b mx my hva hvb => nodeOverlaps_symm a b mx my hva hvb⟩

theorem C9_overlaps_symmetric_witness :
    wNode1.overlaps wNode3 0 0 = wNode3.overlaps wNode1 0 0 :=
  C9_overlaps_symmetric.2.2 wNode1 wNode3 0 0 (by decide) (by decide)

/-! ### C1 -/

/-- The reading-order relation of the spec: weak lexicographic order on
the (page, -y1, x0) keys. -/
def keyLe (k1 k2 : ℤ × ℚ × ℚ) : Prop :=
  k1.1 < k2.1 ∨ (k1.1 = k2.1 ∧
    (k1.2.1 < k2.2.1 ∨ (k1.2.1 = k2.2.1 ∧ k1.2.2 ≤ k2.2.2)))

theorem keyLt_false_iff (k1 k2 : ℤ × ℚ × ℚ) :
    keyLt k2 k1 = false ↔ keyLe k1 k2 := by
  unfold keyLt keyLe
  simp only [Bool.or_eq_false_iff, Bool.and_eq_false_iff, decide_eq_false_iff_not]
  constructor
  · rintro ⟨h1, h2⟩
    rcases lt_trichotomy k1.1 k2.1 with ha | ha | ha
    · exact Or.inl ha
    · refine Or.inr ⟨ha, ?_⟩
      rcases h2 with h2 | h2
      · exact absurd ha.symm h2
      obtain ⟨h3, h4⟩ := h2
      rcases lt_trichotomy k1.2.1 k2.2.1 with hb | hb | hb
      · exact Or.inl hb
      · refine Or.inr ⟨hb, ?_⟩
        rcases h4 with h4 | h4
        · exact absurd hb.symm h4
        · exact not_lt.mp h4
      · exact absurd hb h3
    · exact absurd ha h1
  · rintro (h | ⟨ha, h⟩)
    · exact ⟨not_lt.mpr h.le, Or.inl (ne_of_gt h)⟩
    · refine ⟨not_lt.mpr ha.le, Or.inr ⟨?_, ?_⟩⟩
      · rcases h with h | ⟨hb, h⟩
        · exact not_lt.mpr h.le
        · exact not_lt.mpr hb.le
      · rcases h with h | ⟨hb, h⟩
        · exact Or.inl (ne_of_gt h)
        · exact Or.inr (not_lt.mpr h)

theorem keyLt_true_imp_le {k1 k2 : ℤ × ℚ × ℚ} (h : keyLt k1 k2 = true) :
    keyLe k1 k2 := by
  unfold keyLt at h
  simp only [Bool.or_eq_true, Bool.and_eq_true, decide_eq_true_eq] at h
  unfold keyLe
  rcases h with h | ⟨ha, h | ⟨hb, hc⟩⟩
  · exact Or.inl h
  · exact Or.inr ⟨ha, Or.inl h⟩
  · exact Or.inr ⟨ha, Or.inr ⟨hb, hc.le⟩⟩

theorem keyLe_trans {k1 k2 k3 : ℤ × ℚ × ℚ}
    (h12 : keyLe k1 k2) (h23 : keyLe k2 k3) : keyLe k1 k3 := by
  unfold keyLe at *
  rcases h12 with h12 | ⟨ha12, h12⟩
  · rcases h23 with h23 | ⟨ha23, h23⟩
    · exact Or.inl (lt_trans h12 h23)
    · exact Or.inl (ha23 ▸ h12)
  · rcases h23 with h23 | ⟨ha23, h23⟩
    · exact Or.inl (ha12 ▸ h23)
    · refine Or.inr ⟨ha12.trans ha23, ?_⟩
      rcases h12 with h12 | ⟨hb12, h12⟩
      · rcases h23 with h23 | ⟨hb23, h23⟩
        · exact Or.inl (lt_trans h12 h23)
        · exact Or.inl (hb23 ▸ h12)
      · rcases h23 with h23 | ⟨hb23, h23⟩
        · exact Or.inl (hb12 ▸ h23)
        · exact Or.inr ⟨hb12.trans hb23, le_trans h12 h23⟩

theorem insertKeyed_perm (x : Element) (l : List Element) :
    (insertKeyed x l).Perm (x :: l) := by
  induction l with
  | nil => exact List.Perm.refl _
  | cons y ys ih =>
    unfold insertKeyed
    split_ifs with hc
    · exact (ih.cons y).trans (List.Perm.swap x y ys)
    · exact List.Perm.refl _

theorem sortElements_perm (l : List Element) : (sortElements l).Perm l := by
  induction l with
  | nil => exact List.Perm.refl _
  | cons x xs ih =>
    have hstep : sortElements (x :: xs) = insertKeyed x (sortElements xs) := rfl
    rw [hstep]
    exact (insertKeyed_perm x (sortElements xs)).trans (ih.cons x)

theorem insertKeyed_sorted (x : Element) (l : List Element)
    (h : l.Pairwise (fun a b => keyLe (elemKey a) (elemKey b))) :
    (insertKeyed x l).Pairwise (fun a b => keyLe (elemKey a) (elemKey b)) := by
  induction l with
  | nil => simp [insertKeyed]
  | cons y ys ih =>
    rw [List.pairwise_cons] at h
    unfold insertKeyed
    split_ifs with hc
    · rw [List.pairwise_cons]
      refine ⟨?_, ih h.2⟩
      intro z hz
      have hz3 := (insertKeyed_perm x ys).mem_iff.mp hz
      rcases List.mem_cons.mp hz3 with hz2 | hz2
      · subst hz2
        exact keyLt_true_imp_le hc
      · exact h.1 z hz2
    · rw [List.pairwise_cons]
      have hxy : keyLe (elemKey x) (elemKey y) := (keyLt_false_iff _ _).mp
        (Bool.not_eq_true _ ▸ (by simpa using hc))
      refine ⟨?_, List.pairwise_cons.mpr h⟩
      intro z hz
      rcases List.mem_cons.mp hz with hz2 | hz2
      · subst hz2
        exact hxy
      · exact keyLe_trans hxy (h.1 z hz2)

theorem sortElements_sorted (l : List Element) :
    (sortElements l).Pairwise (fun a b => keyLe (elemKey a) (elemKey b)) := by
  induction l with
  | nil => simp [sortElements]
  | cons x xs ih => exact insertKeyed_sorted x (sortElements xs) ih

/-- The spec's separator rule on an already-ordered tail: a single space
between height-similar consecutive elements (margin 1), the block
separator otherwise. -/
def specJoinTail : Element → List Element → String
  | _, [] => ""
  | prev, e :: rest =>
    (if |e.bbox.y1 - prev.bbox.y1| ≤ 1 then " " else "<br>") ++ e.text
      ++ specJoinTail e rest

/-- The spec's serialization of an ordered element list: first element
plain, every later element preceded by its separator. -/
def specJoin : List Element → String
  | [] => ""
  | e :: rest => e.text ++ specJoinTail e rest

theorem joinRun_eq_spec (prev : Element) (l : List Element) :
    joinRun prev l = specJoinTail prev l := by
  induction l generalizing prev with
  | nil => rfl
  | cons e rest ih =>
    unfold joinRun specJoinTail Element.is_at_similar_height
    rw [ratAbs_eq_abs]
    by_cases hc : |e.bbox.y1 - prev.bbox.y1| ≤ 1
    · rw [if_pos (by simpa using hc), if_pos hc, ih, String.append_assoc]
    · rw [if_neg (by simpa using hc), if_neg hc, ih, String.append_assoc]

def wElemP1c : Element := .textE ⟨"D", [], ⟨1, 300, 200, 10, 10, 20, 90⟩⟩

unseal Rat.sub in
/-- Counterexample to claim C1: the source separates height-dissimilar
elements with the literal string of one br tag, not with the block
separator constant of two br tags that consts.py declares; on a node of
two elements at heights 200 and 90 the serialized text uses the single
tag. -/
theorem C1_counterexample :
    (Node.mk [wElemP1c, wElemP1]).text = "A" ++ "<br>" ++ "D" ∧
      (Node.mk [wElemP1c, wElemP1]).text ≠ "A" ++ ELEMENT_DELIMETER ++ "D" := by
  decide

/-- Claim C1 (amended): for every Node with at least two elements, text
concatenates the elements in an order sorted weakly by the key
(page, -y1, x0) and a permutation of the elements; each element after the
first is preceded by a single space when its y1 is within the default
margin 1 of its predecessor's, and by the single br tag otherwise; the
first element emits no leading separator. -/
theorem C1_text_serialization (n : Node) (_h2 : 2 ≤ n.elements.length) :
    ∃ l, n.elements.Perm l ∧
      l.Pairwise (fun a b => keyLe (elemKey a) (elemKey b)) ∧
      n.text = specJoin l := by
  refine ⟨sortElements n.elements, (sortElements_perm _).symm,
    sortElements_sorted _, ?_⟩
  unfold Node.text specJoin
  cases hs : sortElements n.elements with
  | nil => rfl
  | cons e rest =>
    show e.text ++ joinRun e rest = e.text ++ specJoinTail e rest
    rw [joinRun_eq_spec]

theorem C1_text_serialization_witness :
    ∃ l, (Node.mk [wElemP1c, wElemP1]).elements.Perm l ∧
      l.Pairwise (fun a b => keyLe (elemKey a) (elemKey b)) ∧
      (Node.mk [wElemP1c, wElemP1]).text = specJoin l :=
  C1_text_serialization (Node.mk [wElemP1c, wElemP1]) (by decide)

/-! ### C5: idempotence of the markdown cleanup pass

The proof follows the structure of the five passes.  Writing u for the
string after passes 1 to 4, u contains no marker character adjacent to
whitespace on either side (passes 3 and 4 remove exactly these
adjacencies and create no new ones).  Pass 5 only inserts single spaces
between adjacent double markers.  Re-running the cleanup on rule5 u,
pass 1 removes exactly the inserted spaces, recovering u; passes 2 to 4
leave u unchanged; and pass 5 re-inserts the same spaces. -/

/-- No marker character directly followed by whitespace. -/
def RnMS (x y : Char) : Prop := ¬(isMk x = true ∧ isSp y = true)

/-- No whitespace character directly followed by a marker. -/
def RnSM (x y : Char) : Prop := ¬(isSp x = true ∧ isMk y = true)

theorem mk_not_sp {c : Char} (h : isMk c = true) : isSp c = false := by
  simp only [isMk, Bool.or_eq_true, beq_iff_eq] at h
  rcases h with h | h <;> (subst h; decide)

theorem sp_not_mk {c : Char} (h : isSp c = true) : isMk c = false := by
  cases hm : isMk c
  · rfl
  · rw [mk_not_sp hm] at h
    cases h

theorem chain'_of_suffix {R : Char → Char → Prop} {l1 l2 : List Char}
    (h : l1 <:+ l2) (hc : List.Chain' R l2) : List.Chain' R l1 := by
  obtain ⟨pre, rfl⟩ := h
  exact (List.chain'_append.mp hc).2.1

theorem chain'_dropWhile {R : Char → Char → Prop} {l : List Char}
    (p : Char → Bool) (hc : List.Chain' R l) :
    List.Chain' R (l.dropWhile p) :=
  chain'_of_suffix (List.dropWhile_suffix p) hc

theorem dropWhile_head_not_sp :
    ∀ {l : List Char} {b : Char},
      (l.dropWhile isSp).head? = some b → isSp b = false := by
  intro l
  induction l with
  | nil => intro b h; cases h
  | cons a t ih =>
    intro b h
    by_cases ha : isSp a = true
    · rw [List.dropWhile_cons, if_pos ha] at h
      exact ih h
    · rw [List.dropWhile_cons, if_neg ha] at h
      cases h
      exact Bool.not_eq_true _ ▸ (by simpa using ha)

/-- rule3F keeps the head of the list. -/
theorem rule3F_head :
    ∀ (f : Nat) (l : List Char), (rule3F f l).head? = l.head? := by
  intro f
  induction f with
  | zero => intro l; rfl
  | succ f ih =>
    intro l
    cases l with
    | nil => rfl
    | cons a rest =>
      show (if isMk a && headSp rest then a :: rule3F f (rest.dropWhile isSp)
        else a :: rule3F f rest).head? = _
      split_ifs <;> rfl

/-- rule5 keeps the head of the list. -/
theorem rule5_cons1 (a : Char) (t : List Char) :
    ∃ s, rule5 (a :: t) = a :: s := by
  cases t with
  | nil => exact ⟨[], rfl⟩
  | cons b t2 =>
    cases t2 with
    | nil => exact ⟨[b], rfl⟩
    | cons c t3 =>
      cases t3 with
      | nil => exact ⟨[b, c], rfl⟩
      | cons d t4 =>
        show ∃ s, (if isDbl a b && isDbl c d
          then a :: b :: ' ' :: c :: d :: rule5 t4
          else a :: rule5 (b :: c :: d :: t4)) = a :: s
        split_ifs
        · exact ⟨_, rfl⟩
        · exact ⟨_, rfl⟩

/-- rule5 keeps the first two characters of the list. -/
theorem rule5_cons2 (a b : Char) (t : List Char) :
    ∃ s, rule5 (a :: b :: t) = a :: b :: s := by
  cases t with
  | nil => exact ⟨[], rfl⟩
  | cons c t3 =>
    cases t3 with
    | nil => exact ⟨[c], rfl⟩
    | cons d t4 =>
      show ∃ s, (if isDbl a b && isDbl c d
        then a :: b :: ' ' :: c :: d :: rule5 t4
        else a :: rule5 (b :: c :: d :: t4)) = a :: b :: s
      split_ifs
      · exact ⟨_, rfl⟩
      · obtain ⟨s, hs⟩ := rule5_cons1 b (c :: d :: t4)
        exact ⟨s, by rw [hs]⟩

/-- In a string with no whitespace-then-marker adjacency, the character
after a whitespace run is never a marker. -/
theorem after_run_not_mk :
    ∀ (rest : List Char) (a : Char), List.Chain' RnSM (a :: rest) →
      isSp a = true → ∀ b, (rest.dropWhile isSp).head? = some b →
        isMk b = false := by
  intro rest
  induction rest with
  | nil => intro a _ _ b hb; cases hb
  | cons c rest2 ih =>
    intro a hchain hsp b hb
    by_cases hc : isSp c = true
    · rw [List.dropWhile_cons, if_pos hc] at hb
      exact ih c hchain.tail hc b hb
    · rw [List.dropWhile_cons, if_neg hc] at hb
      have hbc : b = c := by
        injection hb with h2
        exact h2.symm
      cases hmk : isMk b
      · rfl
      · rw [hbc] at hmk
        exact absurd ⟨hsp, hmk⟩ (List.chain'_cons.mp hchain).1

/-- Pass 1 is the identity on strings without marker-then-whitespace
adjacencies. -/
theorem rule1F_id :
    ∀ (f : Nat) (l : List Char), List.Chain' RnMS l → rule1F f l = l := by
  intro f
  induction f with
  | zero => intro l _; rfl
  | succ f ih =>
    intro l hchain
    match l with
    | [] => rfl
    | [a] => rfl
    | a :: b :: rest =>
      show (if isDbl a b && headSp rest then a :: b :: rule1F f (rest.dropWhile isSp)
        else a :: rule1F f (b :: rest)) = a :: b :: rest
      rw [if_neg, ih (b :: rest) hchain.tail]
      intro hcond
      obtain ⟨hdbl, hhsp⟩ := Bool.and_eq_true _ _ ▸ hcond
      cases rest with
      | nil => cases hhsp
      | cons r0 rest2 =>
        have hmb : isMk b = true := by
          simp only [isDbl, Bool.and_eq_true, beq_iff_eq] at hdbl
          rw [← hdbl.1]
          exact hdbl.2
        exact (List.chain'_cons.mp hchain.tail).1 ⟨hmb, hhsp⟩

/-- Pass 3 is the identity on strings without marker-then-whitespace
adjacencies. -/
theorem rule3F_id :
    ∀ (f : Nat) (l : List Char), List.Chain' RnMS l → rule3F f l = l := by
  intro f
  induction f with
  | zero => intro l _; rfl
  | succ f ih =>
    intro l hchain
    match l with
    | [] => rfl
    | a :: rest =>
      show (if isMk a && headSp rest then a :: rule3F f (rest.dropWhile isSp)
        else a :: rule3F f rest) = a :: rest
      rw [if_neg, ih rest hchain.tail]
      intro hcond
      obtain ⟨hmk, hhsp⟩ := Bool.and_eq_true _ _ ▸ hcond
      cases rest with
      | nil => cases hhsp
      | cons r0 rest2 =>
        exact (List.chain'_cons.mp hchain).1 ⟨hmk, hhsp⟩

/-- Pass 2 is the identity on strings without whitespace-then-marker
adjacencies. -/
theorem rule2F_id :
    ∀ (f : Nat) (l : List Char), List.Chain' RnSM l → rule2F f l = l := by
  intro f
  induction f with
  | zero => intro l _; rfl
  | succ f ih =>
    intro l hchain
    match l with
    | [] => rfl
    | a :: rest =>
      by_cases hsp : isSp a = true
      · cases hdw : rest.dropWhile isSp with
        | nil =>
          have hstep : rule2F (f + 1) (a :: rest) = a :: rule2F f rest := by
            show (if isSp a then
                match rest.dropWhile isSp with
                | b :: c :: rest2 =>
                  if isDbl b c then b :: c :: rule2F f rest2
                  else a :: rule2F f rest
                | _ => a :: rule2F f rest
              else a :: rule2F f rest) = _
            rw [if_pos hsp, hdw]
          rw [hstep, ih rest hchain.tail]
        | cons b rest1 =>
          have hmb : isMk b = false :=
            after_run_not_mk rest a hchain hsp b (by rw [hdw]; rfl)
          have hdbl : ∀ c : Char, isDbl b c = false := by
            intro c
            unfold isDbl
            rw [hmb, Bool.and_false]
          cases rest1 with
          | nil =>
            have hstep : rule2F (f + 1) (a :: rest) = a :: rule2F f rest := by
              show (if isSp a then
                  match rest.dropWhile isSp with
                  | b :: c :: rest2 =>
                    if isDbl b c then b :: c :: rule2F f rest2
                    else a :: rule2F f rest
                  | _ => a :: rule2F f rest
                else a :: rule2F f rest) = _
              rw [if_pos hsp, hdw]
            rw [hstep, ih rest hchain.tail]
          | cons c rest2 =>
            have hstep : rule2F (f + 1) (a :: rest) = a :: rule2F f rest := by
              show (if isSp a then
                  match rest.dropWhile isSp with
                  | b :: c :: rest2 =>
                    if isDbl b c then b :: c :: rule2F f rest2
                    else a :: rule2F f rest
                  | _ => a :: rule2F f rest
                else a :: rule2F f rest) = _
              rw [if_pos hsp, hdw]
              show (if isDbl b c then b :: c :: rule2F f rest2
                else a :: rule2F f rest) = _
              rw [hdbl c, if_neg (by simp)]
            rw [hstep, ih rest hchain.tail]
      · have hstep : rule2F (f + 1) (a :: rest) = a :: rule2F f rest := by
          show (if isSp a then
              match rest.dropWhile isSp with
              | b :: c :: rest2 =>
                if isDbl b c then b :: c :: rule2F f rest2
                else a :: rule2F f rest
              | _ => a :: rule2F f rest
            else a :: rule2F f rest) = _
          rw [if_neg hsp]
        rw [hstep, ih rest hchain.tail]

/-- Pass 4 is the identity on strings without whitespace-then-marker
adjacencies. -/
theorem rule4F_id :
    ∀ (f : Nat) (l : List Char), List.Chain' RnSM l → rule4F f l = l := by
  intro f
  induction f with
  | zero => intro l _; rfl
  | succ f ih =>
    intro l hchain
    match l with
    | [] => rfl
    | a :: rest =>
      by_cases hsp : isSp a = true
      · cases hdw : rest.dropWhile isSp with
        | nil =>
          have hstep : rule4F (f + 1) (a :: rest) = a :: rule4F f rest := by
            show (if isSp a then
                match rest.dropWhile isSp with
                | b :: rest2 =>
                  if isMk b then b :: rule4F f rest2 else a :: rule4F f rest
                | [] => a :: rule4F f rest
              else a :: rule4F f rest) = _
            rw [if_pos hsp, hdw]
          rw [hstep, ih rest hchain.tail]
        | cons b rest2 =>
          have hmb : isMk b = false :=
            after_run_not_mk rest a hchain hsp b (by rw [hdw]; rfl)
          have hstep : rule4F (f + 1) (a :: rest) = a :: rule4F f rest := by
            show (if isSp a then
                match rest.dropWhile isSp with
                | b :: rest2 =>
                  if isMk b then b :: rule4F f rest2 else a :: rule4F f rest
                | [] => a :: rule4F f rest
              else a :: rule4F f rest) = _
            rw [if_pos hsp, hdw]
            show (if isMk b then b :: rule4F f rest2 else a :: rule4F f rest) = _
            rw [hmb, if_neg (by simp)]
          rw [hstep, ih rest hchain.tail]
      · have hstep : rule4F (f + 1) (a :: rest) = a :: rule4F f rest := by
          show (if isSp a then
              match rest.dropWhile isSp with
              | b :: rest2 =>
                if isMk b then b :: rule4F f rest2 else a :: rule4F f rest
              | [] => a :: rule4F f rest
            else a :: rule4F f rest) = _
          rw [if_neg hsp]
        rw [hstep, ih rest hchain.tail]

theorem rule4F_nil : ∀ f : Nat, rule4F f [] = [] := by
  intro f
  cases f <;> rfl

theorem rule4F_step_match {f : Nat} {a b : Char} {rest rest2 : List Char}
    (hsp : isSp a = true) (hdw : rest.dropWhile isSp = b :: rest2)
    (hmb : isMk b = true) :
    rule4F (f + 1) (a :: rest) = b :: rule4F f rest2 := by
  show (if isSp a then
      match rest.dropWhile isSp with
      | b :: rest2 => if isMk b then b :: rule4F f rest2 else a :: rule4F f rest
      | [] => a :: rule4F f rest
    else a :: rule4F f rest) = _
  rw [if_pos hsp, hdw]
  show (if isMk b then b :: rule4F f rest2 else a :: rule4F f rest) = _
  rw [hmb, if_pos rfl]

theorem rule4F_step_skip {f : Nat} {a : Char} {rest : List Char}
    (h : isSp a = false ∨ rest.dropWhile isSp = [] ∨
      (∃ b rest2, rest.dropWhile isSp = b :: rest2 ∧ isMk b = false)) :
    rule4F (f + 1) (a :: rest) = a :: rule4F f rest := by
  show (if isSp a then
      match rest.dropWhile isSp with
      | b :: rest2 => if isMk b then b :: rule4F f rest2 else a :: rule4F f rest
      | [] => a :: rule4F f rest
    else a :: rule4F f rest) = _
  rcases h with h | h | ⟨b, rest2, hdw, hmb⟩
  · rw [if_neg (by simp [h])]
  · by_cases hsp : isSp a = true
    · rw [if_pos hsp, h]
    · rw [if_neg hsp]
  · by_cases hsp : isSp a = true
    · rw [if_pos hsp, hdw]
      show (if isMk b then b :: rule4F f rest2 else a :: rule4F f rest) = _
      rw [hmb, if_neg (by simp)]
    · rw [if_neg hsp]

/-- The head of a rule4F output: either the input head, or the marker that
follows the removed whitespace run. -/
theorem rule4F_head_cases :
    ∀ (f : Nat) (l : List Char),
      (rule4F f l).head? = l.head? ∨
        ∃ b rest2, l.dropWhile isSp = b :: rest2 ∧ isMk b = true ∧
          (rule4F f l).head? = some b := by
  intro f l
  cases f with
  | zero => exact Or.inl rfl
  | succ f =>
    cases l with
    | nil => exact Or.inl rfl
    | cons a rest =>
      by_cases hsp : isSp a = true
      · cases hdw : rest.dropWhile isSp with
        | nil => rw [rule4F_step_skip (Or.inr (Or.inl hdw))]; exact Or.inl rfl
        | cons b rest2 =>
          cases hmb : isMk b with
          | false =>
            rw [rule4F_step_skip (Or.inr (Or.inr ⟨b, rest2, hdw, hmb⟩))]
            exact Or.inl rfl
          | true =>
            rw [rule4F_step_match hsp hdw hmb]
            refine Or.inr ⟨b, rest2, ?_, hmb, rfl⟩
            rw [List.dropWhile_cons, if_pos hsp]
            exact hdw
      · rw [rule4F_step_skip (Or.inl (by simpa using hsp))]
        exact Or.inl rfl

/-- Pass 3 leaves no marker directly followed by whitespace. -/
theorem rule3F_noMkSp :
    ∀ (f : Nat) (l : List Char), l.length ≤ f →
      List.Chain' RnMS (rule3F f l) := by
  intro f
  induction f with
  | zero =>
    intro l hl
    rw [List.length_eq_zero.mp (Nat.le_zero.mp hl)]
    exact List.chain'_nil
  | succ f ih =>
    intro l hl
    cases l with
    | nil => exact List.chain'_nil
    | cons a rest =>
      rw [List.length_cons] at hl
      have hrest : rest.length ≤ f := Nat.succ_le_succ_iff.mp hl
      by_cases hcond : (isMk a && headSp rest) = true
      · have hstep : rule3F (f + 1) (a :: rest) =
            a :: rule3F f (rest.dropWhile isSp) := by
          show (if isMk a && headSp rest
            then a :: rule3F f (rest.dropWhile isSp)
            else a :: rule3F f rest) = _
          rw [if_pos hcond]
        rw [hstep, List.chain'_cons']
        refine ⟨?_, ih _ (le_trans (dropWhileSp_len rest) hrest)⟩
        intro y hy
        rw [rule3F_head] at hy
        intro hms
        rw [dropWhile_head_not_sp hy] at hms
        exact Bool.false_ne_true hms.2
      · have hstep : rule3F (f + 1) (a :: rest) = a :: rule3F f rest := by
          show (if isMk a && headSp rest
            then a :: rule3F f (rest.dropWhile isSp)
            else a :: rule3F f rest) = _
          rw [if_neg hcond]
        rw [hstep, List.chain'_cons']
        refine ⟨?_, ih _ hrest⟩
        intro y hy
        rw [rule3F_head] at hy
        intro hms
        apply hcond
        rw [Bool.and_eq_true]
        refine ⟨hms.1, ?_⟩
        cases rest with
        | nil => cases hy
        | cons r0 rest2 =>
          have : r0 = y := by
            injection hy
          show isSp r0 = true
          rw [this]
          exact hms.2

/-- Pass 4 leaves no whitespace directly followed by a marker. -/
theorem rule4F_noSpMk :
    ∀ (f : Nat) (l : List Char), l.length ≤ f →
      List.Chain' RnSM (rule4F f l) := by
  intro f
  induction f with
  | zero =>
    intro l hl
    rw [List.length_eq_zero.mp (Nat.le_zero.mp hl)]
    exact List.chain'_nil
  | succ f ih =>
    intro l hl
    cases l with
    | nil => exact List.chain'_nil
    | cons a rest =>
      rw [List.length_cons] at hl
      have hrest : rest.length ≤ f := Nat.succ_le_succ_iff.mp hl
      by_cases hsp : isSp a = true
      · cases hdw : rest.dropWhile isSp with
        | nil =>
          rw [rule4F_step_skip (Or.inr (Or.inl hdw)), List.chain'_cons']
          refine ⟨?_, ih _ hrest⟩
          intro y hy hms
          rcases rule4F_head_cases f rest with hc | ⟨b, rest2, hdw2, hmb, hc⟩
          · rw [hc] at hy
            cases rest with
            | nil => cases hy
            | cons r0 rest2 =>
              have hr0 : r0 = y := by injection hy
              by_cases hr0sp : isSp r0 = true
              · rw [← hr0] at hms
                rw [sp_not_mk hr0sp] at hms
                exact Bool.false_ne_true hms.2
              · rw [List.dropWhile_cons, if_neg hr0sp] at hdw
                cases hdw
          · rw [hdw2] at hdw
            cases hdw
        | cons b rest2 =>
          cases hmb : isMk b with
          | false =>
            rw [rule4F_step_skip (Or.inr (Or.inr ⟨b, rest2, hdw, hmb⟩)),
              List.chain'_cons']
            refine ⟨?_, ih _ hrest⟩
            intro y hy hms
            rcases rule4F_head_cases f rest with hc | ⟨b2, rest3, hdw2, hmb2, hc⟩
            · rw [hc] at hy
              cases rest with
              | nil => cases hy
              | cons r0 rest3 =>
                have hr0 : r0 = y := by injection hy
                by_cases hr0sp : isSp r0 = true
                · rw [← hr0] at hms
                  rw [sp_not_mk hr0sp] at hms
                  exact Bool.false_ne_true hms.2
                · rw [List.dropWhile_cons, if_neg hr0sp] at hdw
                  have hb : b = r0 := by injection hdw with h1 h2; exact h1.symm
                  rw [← hr0, ← hb] at hms
                  rw [hmb] at hms
                  exact Bool.false_ne_true hms.2
            · rw [hdw2] at hdw
              have hb : b = b2 := by injection hdw with h1 h2; exact h1.symm
              rw [hb, hmb2] at hmb
              exact Bool.false_ne_true hmb.symm
          | true =>
            rw [rule4F_step_match hsp hdw hmb, List.chain'_cons']
            have hlen2 : rest2.length ≤ f := by
              have h1 : (rest.dropWhile isSp).length ≤ rest.length :=
                dropWhileSp_len rest
              rw [hdw, List.length_cons] at h1
              omega
            refine ⟨?_, ih _ hlen2⟩
            intro y hy hms
            rw [mk_not_sp hmb] at hms
            exact Bool.false_ne_true hms.1
      · rw [rule4F_step_skip (Or.inl (by simpa using hsp)), List.chain'_cons']
        refine ⟨?_, ih _ hrest⟩
        intro y hy hms
        exact hsp hms.1

/-- Pass 4 removes only whitespace, so it preserves the absence of
marker-then-whitespace adjacencies. -/
theorem rule4F_noMkSp :
    ∀ (f : Nat) (l : List Char), l.length ≤ f → List.Chain' RnMS l →
      List.Chain' RnMS (rule4F f l) := by
  intro f
  induction f with
  | zero =>
    intro l hl _
    rw [List.length_eq_zero.mp (Nat.le_zero.mp hl)]
    exact List.chain'_nil
  | succ f ih =>
    intro l hl hchain
    cases l with
    | nil => exact List.chain'_nil
    | cons a rest =>
      rw [List.length_cons] at hl
      have hrest : rest.length ≤ f := Nat.succ_le_succ_iff.mp hl
      by_cases hsp : isSp a = true
      · cases hdw : rest.dropWhile isSp with
        | nil =>
          rw [rule4F_step_skip (Or.inr (Or.inl hdw)), List.chain'_cons']
          refine ⟨?_, ih _ hrest hchain.tail⟩
          intro y _ hms
          rw [sp_not_mk hsp] at hms
          exact Bool.false_ne_true hms.1
        | cons b rest2 =>
          cases hmb : isMk b with
          | false =>
            rw [rule4F_step_skip (Or.inr (Or.inr ⟨b, rest2, hdw, hmb⟩)),
              List.chain'_cons']
            refine ⟨?_, ih _ hrest hchain.tail⟩
            intro y _ hms
            rw [sp_not_mk hsp] at hms
            exact Bool.false_ne_true hms.1
          | true =>
            rw [rule4F_step_match hsp hdw hmb, List.chain'_cons']
            have hsub : (b :: rest2) <:+ (a :: rest) := by
              rw [← hdw]
              exact (List.dropWhile_suffix isSp).trans (List.suffix_cons a rest)
            have hchainb : List.Chain' RnMS (b :: rest2) :=
              chain'_of_suffix hsub hchain
            have hlen2 : rest2.length ≤ f := by
              have h1 : (rest.dropWhile isSp).length ≤ rest.length :=
                dropWhileSp_len rest
              rw [hdw, List.length_cons] at h1
              omega
            refine ⟨?_, ih _ hlen2 hchainb.tail⟩
            intro y hy
            rcases rule4F_head_cases f rest2 with hc | ⟨b2, rest3, hdw2, hmb2, hc⟩
            · rw [hc] at hy
              exact (List.chain'_cons'.mp hchainb).1 y hy
            · rw [hc] at hy
              have hyb : b2 = y := by injection hy
              intro hms
              rw [← hyb, mk_not_sp hmb2] at hms
              exact Bool.false_ne_true hms.2
      · rw [rule4F_step_skip (Or.inl (by simpa using hsp)), List.chain'_cons']
        refine ⟨?_, ih _ hrest hchain.tail⟩
        intro y hy
        rcases rule4F_head_cases f rest with hc | ⟨b2, rest3, hdw2, hmb2, hc⟩
        · rw [hc] at hy
          exact (List.chain'_cons'.mp hchain).1 y hy
        · rw [hc] at hy
          have hyb : b2 = y := by injection hy
          intro hms
          rw [← hyb, mk_not_sp hmb2] at hms
          exact Bool.false_ne_true hms.2

/-- On a string without marker-then-whitespace adjacencies, pass 1 removes
exactly the spaces pass 5 inserted, recovering the original string. -/
theorem rule1F_rule5 :
    ∀ u : List Char, ∀ f : Nat, List.Chain' RnMS u →
      (rule5 u).length ≤ f → rule1F f (rule5 u) = u := by
  intro u
  induction u using rule5.induct with
  | case1 => intro f hc _; exact rule1F_id f [] hc
  | case2 a => intro f hc _; exact rule1F_id f [a] hc
  | case3 a b => intro f hc _; exact rule1F_id f [a, b] hc
  | case4 a b c => intro f hc _; exact rule1F_id f [a, b, c] hc
  | case5 a b c d rest hcond ih =>
    intro f hchain hlen
    have hab : isDbl a b = true := (Bool.and_eq_true _ _ ▸ hcond).1
    have hcd : isDbl c d = true := (Bool.and_eq_true _ _ ▸ hcond).2
    have hmkc : isMk c = true := by
      simp only [isDbl, Bool.and_eq_true, beq_iff_eq] at hcd
      exact hcd.2
    have hmkd : isMk d = true := by
      simp only [isDbl, Bool.and_eq_true, beq_iff_eq] at hcd
      rw [← hcd.1]
      exact hcd.2
    have h5 : rule5 (a :: b :: c :: d :: rest) =
        a :: b :: ' ' :: c :: d :: rule5 rest := by
      show (if isDbl a b && isDbl c d then a :: b :: ' ' :: c :: d :: rule5 rest
        else a :: rule5 (b :: c :: d :: rest)) = _
      rw [if_pos hcond]
    rw [h5] at hlen ⊢
    simp only [List.length_cons] at hlen
    obtain ⟨f1, rfl⟩ : ∃ f1, f = f1 + 1 := ⟨f - 1, by omega⟩
    have hdrop : (' ' :: c :: d :: rule5 rest).dropWhile isSp =
        c :: d :: rule5 rest := by
      rw [List.dropWhile_cons, if_pos (by decide), List.dropWhile_cons,
        if_neg (by simp [mk_not_sp hmkc])]
    have hstep1 : rule1F (f1 + 1) (a :: b :: ' ' :: c :: d :: rule5 rest) =
        a :: b :: rule1F f1 (c :: d :: rule5 rest) := by
      show (if isDbl a b && headSp (' ' :: c :: d :: rule5 rest)
          then a :: b :: rule1F f1 ((' ' :: c :: d :: rule5 rest).dropWhile isSp)
          else a :: rule1F f1 (b :: ' ' :: c :: d :: rule5 rest)) = _
      rw [if_pos (by rw [hab]; rfl), hdrop]
    obtain ⟨f2, rfl⟩ : ∃ f2, f1 = f2 + 1 := ⟨f1 - 1, by omega⟩
    have hheadT : headSp (rule5 rest) = false := by
      cases rest with
      | nil => rfl
      | cons r0 rest2 =>
        obtain ⟨s, hs⟩ := rule5_cons1 r0 rest2
        rw [hs]
        show isSp r0 = false
        have hpair : RnMS d r0 := (List.chain'_cons.mp
          (hchain.tail.tail.tail : List.Chain' RnMS (d :: r0 :: rest2))).1
        cases hr : isSp r0
        · rfl
        · exact absurd ⟨hmkd, hr⟩ hpair
    have hstep2 : rule1F (f2 + 1) (c :: d :: rule5 rest) =
        c :: rule1F f2 (d :: rule5 rest) := by
      show (if isDbl c d && headSp (rule5 rest)
          then c :: d :: rule1F f2 ((rule5 rest).dropWhile isSp)
          else c :: rule1F f2 (d :: rule5 rest)) = _
      rw [if_neg (by rw [hheadT, Bool.and_false]; simp)]
    cases rest with
    | nil =>
      rw [hstep1, hstep2]
      show a :: b :: c :: rule1F f2 [d] = a :: b :: c :: [d]
      rw [rule1F_id f2 [d] (List.chain'_singleton d)]
    | cons r0 rest2 =>
      obtain ⟨s, hs⟩ := rule5_cons1 r0 rest2
      have hlen1 : 1 ≤ (rule5 (r0 :: rest2)).length := by
        rw [hs]
        simp
      obtain ⟨f3, rfl⟩ : ∃ f3, f2 = f3 + 1 := ⟨f2 - 1, by omega⟩
      have hcond3 : (isDbl d r0 && headSp s) = false := by
        cases hdr : isDbl d r0 with
        | false => rfl
        | true =>
          have hmkr0 : isMk r0 = true := by
            simp only [isDbl, Bool.and_eq_true, beq_iff_eq] at hdr
            rw [← hdr.1]
            exact hdr.2
          cases rest2 with
          | nil =>
            have hsnil : s = [] := by
              rw [show rule5 [r0] = [r0] from rfl] at hs
              injection hs with h1 h2
              exact h2.symm
            rw [hsnil]
            rfl
          | cons r1 rest3 =>
            obtain ⟨s2, hs2⟩ := rule5_cons2 r0 r1 rest3
            have hss : s = r1 :: s2 := by
              rw [hs2] at hs
              injection hs with h1 h2
              exact h2.symm
            rw [hss]
            show (true && isSp r1) = false
            have hpair : RnMS r0 r1 := (List.chain'_cons.mp
              (hchain.tail.tail.tail.tail :
                List.Chain' RnMS (r0 :: r1 :: rest3))).1
            cases hr1 : isSp r1
            · rfl
            · exact absurd ⟨hmkr0, hr1⟩ hpair
      have hstep3 : rule1F (f3 + 1) (d :: rule5 (r0 :: rest2)) =
          d :: rule1F f3 (rule5 (r0 :: rest2)) := by
        rw [hs]
        show (if isDbl d r0 && headSp s
            then d :: r0 :: rule1F f3 (s.dropWhile isSp)
            else d :: rule1F f3 (r0 :: s)) = _
        rw [if_neg (by rw [hcond3]; simp)]
      rw [hstep1, hstep2, hstep3,
        ih f3 (hchain.tail.tail.tail.tail :
          List.Chain' RnMS (r0 :: rest2))
          (by omega)]
  | case6 a b c d rest hcond ih =>
    intro f hchain hlen
    have h5 : rule5 (a :: b :: c :: d :: rest) =
        a :: rule5 (b :: c :: d :: rest) := by
      show (if isDbl a b && isDbl c d then a :: b :: ' ' :: c :: d :: rule5 rest
        else a :: rule5 (b :: c :: d :: rest)) = _
      rw [if_neg hcond]
    rw [h5] at hlen ⊢
    obtain ⟨s, hs⟩ := rule5_cons2 b c (d :: rest)
    rw [hs] at hlen ⊢
    simp only [List.length_cons] at hlen
    obtain ⟨f1, rfl⟩ : ∃ f1, f = f1 + 1 := ⟨f - 1, by omega⟩
    have hcondA : (isDbl a b && headSp (c :: s)) = false := by
      cases hab : isDbl a b with
      | false => rfl
      | true =>
        have hmkb : isMk b = true := by
          simp only [isDbl, Bool.and_eq_true, beq_iff_eq] at hab
          rw [← hab.1]
          exact hab.2
        show (true && isSp c) = false
        have hpair : RnMS b c := (List.chain'_cons.mp hchain.tail).1
        cases hc2 : isSp c
        · rfl
        · exact absurd ⟨hmkb, hc2⟩ hpair
    have hstepA : rule1F (f1 + 1) (a :: b :: c :: s) =
        a :: rule1F f1 (b :: c :: s) := by
      show (if isDbl a b && headSp (c :: s)
          then a :: b :: rule1F f1 ((c :: s).dropWhile isSp)
          else a :: rule1F f1 (b :: c :: s)) = _
      rw [if_neg (by rw [hcondA]; simp)]
    rw [hstepA, ← hs, ih f1 hchain.tail
      (by rw [hs]; simp only [List.length_cons]; omega)]

/-- The five-pass cleanup is idempotent on character lists. -/
theorem cleanupList_idem (l : List Char) :
    cleanupList (cleanupList l) = cleanupList l := by
  unfold cleanupList
  set w := rule2 (rule1 l) with hw
  set u := rule4 (rule3 w) with hu
  have hMS3 : List.Chain' RnMS (rule3 w) :=
    rule3F_noMkSp w.length w le_rfl
  have hMS : List.Chain' RnMS u :=
    rule4F_noMkSp (rule3 w).length (rule3 w) le_rfl hMS3
  have hSM : List.Chain' RnSM u :=
    rule4F_noSpMk (rule3 w).length (rule3 w) le_rfl
  have h1 : rule1 (rule5 u) = u :=
    rule1F_rule5 u (rule5 u).length hMS le_rfl
  have h2 : rule2 u = u := rule2F_id u.length u hSM
  have h3 : rule3 u = u := rule3F_id u.length u hMS
  have h4 : rule4 u = u := rule4F_id u.length u hSM
  rw [show rule1 (rule5 u) = u from h1, h2, h3, h4]

/-- Claim C5: the markdown-cleanup pass is idempotent; applying the
five-rule cleanup to its own output leaves it unchanged for every
string. -/
theorem C5_cleanup_idempotent (s : String) :
    clean_markdown_formatting (clean_markdown_formatting s) =
      clean_markdown_formatting s := by
  unfold clean_markdown_formatting
  rw [show ((cleanupList s.toList).asString).toList = cleanupList s.toList
    from rfl, cleanupList_idem]

end OpenParse
